import Mathlib

/-!
Verification of the CryptoSignalChecker analytics core.

The definitions below are a shallow embedding of the JavaScript source:
pure functions become Lean functions over `ℚ` (JS numbers) and `ℕ`
(millisecond timestamps), fallible code returns `Option`/`Except`, and the
stateful scanning loops become explicit state-passing recursions.  Network
and cache effects are modelled by passing the data a call would have
received (HTTP response sequences, cache contents, per-symbol fetch
results) as explicit arguments.
-/

namespace CryptoSignal

/-- A formatted kline as produced by `formatKlinesData`: only the fields the
analytics code reads (closeTime, high, low, close) are carried; timestamps
are epoch milliseconds. -/
structure Candle where
  closeTime : ℕ
  high : ℚ
  low : ℚ
  close : ℚ
deriving DecidableEq

/-! ## Stable insertion sort

`Array.prototype.sort` with a numeric comparator is a stable sort; we model
it with a stable insertion sort parameterised by the "placed before"
test: `insortBy bef e l` inserts `e` in front of the first element `h`
with `bef e h`.  Folding from the right is stable: an element earlier in
the input is inserted later and therefore lands in front of elements that
compare equal to it. -/

def insortBy (bef : α → α → Bool) (e : α) : List α → List α
  | [] => [e]
  | h :: t => if bef e h then e :: h :: t else h :: insortBy bef e t

def sortByStable (bef : α → α → Bool) (l : List α) : List α :=
  l.foldr (insortBy bef) []

theorem insortBy_perm (bef : α → α → Bool) (e : α) (l : List α) :
    List.Perm (insortBy bef e l) (e :: l) := by
  induction l with
  | nil => simp [insortBy]
  | cons h t ih =>
    by_cases hb : bef e h
    · simp [insortBy, hb]
    · simp only [insortBy, hb, if_neg, Bool.false_eq_true, ite_false]
      exact (List.Perm.cons h ih).trans (List.Perm.swap e h t)

theorem sortByStable_perm (bef : α → α → Bool) (l : List α) :
    List.Perm (sortByStable bef l) l := by
  induction l with
  | nil => simp [sortByStable]
  | cons h t ih =>
    have : sortByStable bef (h :: t) = insortBy bef h (sortByStable bef t) := rfl
    rw [this]
    exact (insortBy_perm bef h (sortByStable bef t)).trans (List.Perm.cons h ih)

theorem mem_sortByStable (bef : α → α → Bool) (l : List α) (x : α) :
    x ∈ sortByStable bef l ↔ x ∈ l :=
  (sortByStable_perm bef l).mem_iff

theorem insortBy_sorted (bef : α → α → Bool)
    (htot : ∀ a b, bef a b = true ∨ bef b a = true)
    (htrans : ∀ a b c, bef a b = true → bef b c = true → bef a c = true)
    (e : α) (L : List α) (hL : List.Sorted (fun a b => bef a b = true) L) :
    List.Sorted (fun a b => bef a b = true) (insortBy bef e L) := by
  induction L with
  | nil => simp [insortBy, List.Sorted]
  | cons a L ihL =>
    by_cases hb : bef e a
    · simp only [insortBy, hb, if_pos]
      refine List.sorted_cons.mpr ⟨?_, hL⟩
      intro b hbmem
      rcases List.mem_cons.mp hbmem with rfl | hbmem
      · exact hb
      · exact htrans e a b hb (List.rel_of_sorted_cons hL b hbmem)
    · simp only [insortBy, hb, Bool.false_eq_true, ite_false]
      have ih' := ihL hL.of_cons
      refine List.sorted_cons.mpr ⟨?_, ih'⟩
      intro b hbmem
      have hmem := (insortBy_perm bef e L).mem_iff.mp hbmem
      rcases List.mem_cons.mp hmem with rfl | hbmem'
      · rcases htot a b with hba | hab
        · exact hba
        · exact absurd hab (by simpa using hb)
      · exact List.rel_of_sorted_cons hL b hbmem'

theorem sortByStable_sorted (bef : α → α → Bool)
    (htot : ∀ a b, bef a b = true ∨ bef b a = true)
    (htrans : ∀ a b c, bef a b = true → bef b c = true → bef a c = true)
    (l : List α) :
    List.Sorted (fun a b => bef a b = true) (sortByStable bef l) := by
  induction l with
  | nil => simp [sortByStable, List.Sorted]
  | cons h t ih => exact insortBy_sorted bef htot htrans h _ ih

theorem sortByStable_cons (bef : α → α → Bool) (a : α) (l : List α) :
    sortByStable bef (a :: l) = insortBy bef a (sortByStable bef l) := rfl

theorem insortBy_of_forall (bef : α → α → Bool) (e : α) (M : List α)
    (h : ∀ x ∈ M, bef e x = true) : insortBy bef e M = e :: M := by
  cases M with
  | nil => rfl
  | cons a t => simp [insortBy, h a (by simp)]

theorem sortByStable_eq_self_of_sorted (bef : α → α → Bool) (l : List α)
    (hl : List.Sorted (fun a b => bef a b = true) l) :
    sortByStable bef l = l := by
  induction l with
  | nil => rfl
  | cons a t ih =>
    rw [sortByStable_cons, ih hl.of_cons]
    exact insortBy_of_forall bef a t (fun x hx => List.rel_of_sorted_cons hl x hx)

theorem filter_insortBy (bef : α → α → Bool)
    (htrans : ∀ a b c, bef a b = true → bef b c = true → bef a c = true)
    (p : α → Bool) (e : α) (L : List α)
    (hL : List.Sorted (fun a b => bef a b = true) L) :
    (insortBy bef e L).filter p =
      if p e then insortBy bef e (L.filter p) else L.filter p := by
  induction L with
  | nil => by_cases hp : p e <;> simp [insortBy, hp, List.filter]
  | cons a L ih =>
    by_cases hb : bef e a
    · simp only [insortBy, hb, if_pos]
      by_cases hp : p e
      · by_cases hpa : p a
        · simp [List.filter, hp, hpa, insortBy, hb]
        · simp only [List.filter, hp, hpa, if_pos, if_neg, Bool.false_eq_true,
            ite_true, ite_false]
          rw [insortBy_of_forall bef e (L.filter p)]
          intro x hx
          have hxL : x ∈ L := List.mem_of_mem_filter hx
          exact htrans e a x hb (List.rel_of_sorted_cons hL x hxL)
      · simp [List.filter, hp]
    · simp only [insortBy, hb, Bool.false_eq_true, ite_false]
      have ih' := ih hL.of_cons
      by_cases hp : p e
      · by_cases hpa : p a
        · simp [List.filter, hp, hpa, insortBy, hb, ih']
        · simp [List.filter, hp, hpa, ih']
      · by_cases hpa : p a
        · simp [List.filter, hp, hpa, ih']
        · simp [List.filter, hp, hpa, ih']

theorem filter_sortByStable (bef : α → α → Bool)
    (htot : ∀ a b, bef a b = true ∨ bef b a = true)
    (htrans : ∀ a b c, bef a b = true → bef b c = true → bef a c = true)
    (p : α → Bool) (l : List α) :
    (sortByStable bef l).filter p = sortByStable bef (l.filter p) := by
  induction l with
  | nil => rfl
  | cons a t ih =>
    rw [sortByStable_cons,
      filter_insortBy bef htrans p a _ (sortByStable_sorted bef htot htrans t), ih]
    by_cases hpa : p a
    · simp [List.filter, hpa, sortByStable_cons]
    · simp [List.filter, hpa]

/-! ## RSIEngine: `calculateRSI` (src/src/binance.js and the bundled copy)

`calculateRSI(prices, period)` throws when fewer than `period + 1` prices
are supplied (modelled as `none`), otherwise returns an array index-aligned
with the input: `period` leading nulls, then `RSI` values computed with
Wilder's smoothing. -/

/-- `RSI = 100 - 100 / (1 + RS)` with `RS = avgLoss !== 0 ? avgGain / avgLoss : 0`. -/
def rsiOf (avgGain avgLoss : ℚ) : ℚ :=
  100 - 100 / (1 + (if avgLoss ≠ 0 then avgGain / avgLoss else 0))

/-- The Wilder-smoothing loop (`for (let i = period + 1; ...)`): each step
updates the running average gain/loss with
`avg = (avg * (period - 1) + current) / period` and emits the new RSI. -/
def wilder (p : ℚ) (avgGain avgLoss : ℚ) : List (ℚ × ℚ) → List ℚ
  | [] => []
  | (g, l) :: rest =>
    let ag := (avgGain * (p - 1) + g) / p
    let al := (avgLoss * (p - 1) + l) / p
    rsiOf ag al :: wilder p ag al rest

def calculateRSI (prices : List ℚ) (period : ℕ) : Option (List (Option ℚ)) :=
  if prices.length < period + 1 then none
  else
    let changes := List.zipWith (fun a b => b - a) prices prices.tail
    let gains := changes.map (fun c => if c > 0 then c else 0)
    let losses := changes.map (fun c => if c < 0 then -c else 0)
    let avgGain := (gains.take period).sum / (period : ℚ)
    let avgLoss := (losses.take period).sum / (period : ℚ)
    some (List.replicate period none ++
      some (rsiOf avgGain avgLoss) ::
        (wilder (period : ℚ) avgGain avgLoss ((gains.zip losses).drop period)).map some)

theorem rsiOf_bounds (g l : ℚ) (hg : 0 ≤ g) (hl : 0 ≤ l) :
    0 ≤ rsiOf g l ∧ rsiOf g l ≤ 100 := by
  unfold rsiOf
  set rs : ℚ := if l ≠ 0 then g / l else 0 with hrs
  have hrs0 : 0 ≤ rs := by
    rw [hrs]
    split
    · exact div_nonneg hg hl
    · exact le_refl 0
  have h1 : (0:ℚ) < 1 + rs := by linarith
  have h2 : 100 / (1 + rs) ≤ 100 := by
    calc 100 / (1 + rs) ≤ 100 / 1 := by
          apply div_le_div_of_nonneg_left (by norm_num) (by norm_num) (by linarith)
      _ = 100 := by norm_num
  have h3 : 0 ≤ 100 / (1 + rs) := by positivity
  constructor <;> linarith

theorem wilder_length (p ag al : ℚ) (gls : List (ℚ × ℚ)) :
    (wilder p ag al gls).length = gls.length := by
  induction gls generalizing ag al with
  | nil => rfl
  | cons gl rest ih => cases gl; simp [wilder, ih]

theorem wilder_mem_bounds (p : ℚ) (hp : 1 ≤ p) (gls : List (ℚ × ℚ))
    (ag al : ℚ) (hag : 0 ≤ ag) (hal : 0 ≤ al)
    (hgl : ∀ gl ∈ gls, 0 ≤ gl.1 ∧ 0 ≤ gl.2) :
    ∀ x ∈ wilder p ag al gls, 0 ≤ x ∧ x ≤ 100 := by
  induction gls generalizing ag al with
  | nil => intro x hx; simp [wilder] at hx
  | cons gl rest ih =>
    obtain ⟨g, l⟩ := gl
    intro x hx
    have hg : 0 ≤ g := (hgl (g, l) (by simp)).1
    have hl : 0 ≤ l := (hgl (g, l) (by simp)).2
    have hp0 : (0:ℚ) < p := by linarith
    have hag' : 0 ≤ (ag * (p - 1) + g) / p :=
      div_nonneg (by nlinarith) (le_of_lt hp0)
    have hal' : 0 ≤ (al * (p - 1) + l) / p :=
      div_nonneg (by nlinarith) (le_of_lt hp0)
    simp only [wilder, List.mem_cons] at hx
    rcases hx with rfl | hx
    · exact rsiOf_bounds _ _ hag' hal'
    · exact ih _ _ hag' hal' (fun gl h => hgl gl (by simp [h])) x hx

/-- C1: for `period ≥ 1` and at least `period + 1` prices, `calculateRSI`
returns an array of the input's length, `period` leading nulls followed by
values in `[0, 100]`; with fewer prices it errors. -/
theorem calculateRSI_spec (prices : List ℚ) (period : ℕ) (hp : 1 ≤ period) :
    (period + 1 ≤ prices.length →
      ∃ vals : List ℚ,
        calculateRSI prices period =
          some (List.replicate period none ++ vals.map some) ∧
        period + vals.length = prices.length ∧
        ∀ x ∈ vals, 0 ≤ x ∧ x ≤ 100) ∧
    (prices.length < period + 1 → calculateRSI prices period = none) := by
  constructor
  · intro hlen
    have hnot : ¬ prices.length < period + 1 := by omega
    unfold calculateRSI
    rw [if_neg hnot]
    set changes := List.zipWith (fun a b => b - a) prices prices.tail with hch
    set gains := changes.map (fun c => if c > 0 then c else 0) with hg
    set losses := changes.map (fun c => if c < 0 then -c else 0) with hlo
    set avgGain := (gains.take period).sum / (period : ℚ) with hag
    set avgLoss := (losses.take period).sum / (period : ℚ) with hal
    refine ⟨rsiOf avgGain avgLoss ::
      wilder (period : ℚ) avgGain avgLoss ((gains.zip losses).drop period), ?_, ?_, ?_⟩
    · simp
    · have hchlen : changes.length = prices.length - 1 := by
        rw [hch]
        simp [List.length_zipWith, List.length_tail]
      have hglen : gains.length = changes.length := by simp [hg]
      have hllen : losses.length = changes.length := by simp [hlo]
      have : ((gains.zip losses).drop period).length = changes.length - period := by
        simp [List.length_zip, hglen, hllen]
      simp only [List.length_cons, wilder_length, this]
      omega
    · have hgnn : ∀ x ∈ gains, 0 ≤ x := by
        intro x hx
        rw [hg] at hx
        obtain ⟨c, _, rfl⟩ := List.mem_map.mp hx
        split <;> [linarith; exact le_refl 0]
      have hlnn : ∀ x ∈ losses, 0 ≤ x := by
        intro x hx
        rw [hlo] at hx
        obtain ⟨c, _, rfl⟩ := List.mem_map.mp hx
        split <;> [linarith; exact le_refl 0]
      have hpq : (0:ℚ) < (period : ℚ) := by
        exact_mod_cast Nat.lt_of_lt_of_le Nat.zero_lt_one hp
      have hagnn : 0 ≤ avgGain := by
        rw [hag]
        apply div_nonneg _ (le_of_lt hpq)
        exact List.sum_nonneg (fun x hx => hgnn x (List.mem_of_mem_take hx))
      have halnn : 0 ≤ avgLoss := by
        rw [hal]
        apply div_nonneg _ (le_of_lt hpq)
        exact List.sum_nonneg (fun x hx => hlnn x (List.mem_of_mem_take hx))
      intro x hx
      rcases List.mem_cons.mp hx with rfl | hx
      · exact rsiOf_bounds _ _ hagnn halnn
      · refine wilder_mem_bounds (period : ℚ) (by exact_mod_cast hp) _ _ _ hagnn halnn
          ?_ x hx
        intro gl hgl
        have hglmem := List.mem_of_mem_drop hgl
        have h1 := List.of_mem_zip hglmem
        exact ⟨hgnn _ h1.1, hlnn _ h1.2⟩
  · intro hlen
    unfold calculateRSI
    rw [if_pos hlen]

/-! ## BreakoutDetector: position resolution (`detectBreakoutSignals`)

The same-day scan closes an open position by checking, per candle, the
stop-loss conditions first and the take-profit conditions only when no
stop-loss fired (`if (!positionClosed) { ... }`); the multi-day look-ahead
over `candlesAfterReentry` repeats the same checks with early `break`s. -/

inductive Direction where
  | long
  | short
deriving DecidableEq

inductive TradeResult where
  | pending
  | win
  | loss
deriving DecidableEq

/-- One candle of the same-day open-position check: stop-loss conditions
first, then take-profit conditions, in source order. -/
def checkCandleClose (dir : Direction) (stopLoss takeProfit : ℚ) (c : Candle) :
    Option TradeResult :=
  if dir = .long ∧ c.low ≤ stopLoss then some .loss
  else if dir = .short ∧ c.high ≥ stopLoss then some .loss
  else if dir = .long ∧ c.high ≥ takeProfit then some .win
  else if dir = .short ∧ c.low ≤ takeProfit then some .win
  else none

/-- The multi-day look-ahead scan over the candles after re-entry
(`for (const checkCandle of candlesAfterReentry)`): the first candle that
hits stop-loss or take-profit decides the result, stop-loss checked first. -/
def resolvePendingScan (dir : Direction) (stopLoss takeProfit : ℚ) :
    List Candle → Option TradeResult
  | [] => none
  | c :: rest =>
    if dir = .long ∧ c.low ≤ stopLoss then some .loss
    else if dir = .short ∧ c.high ≥ stopLoss then some .loss
    else if dir = .long ∧ c.high ≥ takeProfit then some .win
    else if dir = .short ∧ c.low ≤ takeProfit then some .win
    else resolvePendingScan dir stopLoss takeProfit rest

/-- C3: on a candle satisfying both the stop-loss and the take-profit
condition, the resolution logic returns `loss`, never `win` — in the
same-day check and in the multi-day look-ahead scan, for both directions. -/
theorem stopLoss_checked_first (sl tp : ℚ) (c : Candle)
    (hLongSL : c.low ≤ sl) (hLongTP : c.high ≥ tp)
    (hShortSL : c.high ≥ sl) (hShortTP : c.low ≤ tp) :
    checkCandleClose .long sl tp c = some .loss ∧
    checkCandleClose .short sl tp c = some .loss ∧
    (∀ rest, resolvePendingScan .long sl tp (c :: rest) = some .loss) ∧
    (∀ rest, resolvePendingScan .short sl tp (c :: rest) = some .loss) := by
  refine ⟨?_, ?_, ?_, ?_⟩
  · simp [checkCandleClose, hLongSL]
  · simp [checkCandleClose, hShortSL]
  · intro rest; simp [resolvePendingScan, hLongSL]
  · intro rest; simp [resolvePendingScan, hShortSL]

/-- Witness for C3: candle `low = 0, high = 3` against `stopLoss = 1`,
`takeProfit = 2` (long) — both conditions hold and the result is `loss`. -/
theorem stopLoss_checked_first_witness :
    checkCandleClose .long 1 2 ⟨0, 3, 0, 1⟩ = some .loss ∧
    checkCandleClose .short 1 2 ⟨0, 3, 0, 1⟩ = some .loss ∧
    (∀ rest, resolvePendingScan .long 1 2 (⟨0, 3, 0, 1⟩ :: rest) = some .loss) ∧
    (∀ rest, resolvePendingScan .short 1 2 (⟨0, 3, 0, 1⟩ :: rest) = some .loss) :=
  stopLoss_checked_first 1 2 ⟨0, 3, 0, 1⟩ (by norm_num) (by norm_num)
    (by norm_num) (by norm_num)

/-! ## MarketDataSource: `getBinanceKlines` failure handling

The network loop is modelled response-sequence-first: `getBinanceKlinesRun
responses` consumes the successive HTTP responses the endpoint would
return.  The model reports the outcome, the number of requests issued and
the waits performed (in ms).  On 429 the source waits
`Retry-After * 1000` ms (60000 when absent) and re-invokes itself
(`return getBinanceKlines(...)`); on 418 it throws at once; any other
non-2xx status throws an error naming the status. -/

structure HttpResponse where
  status : ℕ
  retryAfter : Option ℕ
  body : List Candle
deriving DecidableEq

def waitFor429 (r : HttpResponse) : ℕ :=
  match r.retryAfter with
  | some s => s * 1000
  | none => 60000

def getBinanceKlinesRun : List HttpResponse → Except String (List Candle) × ℕ × List ℕ
  | [] => (.error "no response", 0, [])
  | r :: rest =>
    if 200 ≤ r.status ∧ r.status ≤ 299 then (.ok r.body, 1, [])
    else if r.status = 429 then
      ((getBinanceKlinesRun rest).1, (getBinanceKlinesRun rest).2.1 + 1,
        waitFor429 r :: (getBinanceKlinesRun rest).2.2)
    else if r.status = 418 then
      (.error "Binance API: IP banned (418). Please wait before retrying.", 1, [])
    else (.error ("Binance API error: " ++ toString r.status), 1, [])

/-- C6 counterexample: a 429 followed by another 429 and then a success is
retried twice (three requests in total), refuting "retries the request
exactly once" (which would allow at most two requests). -/
theorem getBinanceKlines_retries_more_than_once :
    (getBinanceKlinesRun
      [⟨429, none, []⟩, ⟨429, none, []⟩, ⟨200, none, []⟩]).2.1 = 3 ∧
    ¬ (getBinanceKlinesRun
      [⟨429, none, []⟩, ⟨429, none, []⟩, ⟨200, none, []⟩]).2.1 ≤ 2 ∧
    (getBinanceKlinesRun
      [⟨429, none, []⟩, ⟨429, none, []⟩, ⟨200, none, []⟩]).1 = .ok [] := by
  refine ⟨by decide, by decide, rfl⟩

/-- C6 amended: every 429 response triggers a wait (Retry-After seconds,
60 s when absent) followed by one retry — so a run of `k` consecutive 429s
yields `k` retries, without an overall bound; HTTP 418 raises immediately
and is never retried; any other non-2xx status raises an error identifying
the status code. -/
theorem getBinanceKlines_failure_handling :
    (∀ (pre rest : List HttpResponse), (∀ r ∈ pre, r.status = 429) →
      getBinanceKlinesRun (pre ++ rest) =
        ((getBinanceKlinesRun rest).1,
         pre.length + (getBinanceKlinesRun rest).2.1,
         pre.map waitFor429 ++ (getBinanceKlinesRun rest).2.2)) ∧
    (∀ (r : HttpResponse) (rest : List HttpResponse),
      200 ≤ r.status → r.status ≤ 299 →
      getBinanceKlinesRun (r :: rest) = (.ok r.body, 1, [])) ∧
    (∀ (r : HttpResponse) (rest : List HttpResponse), r.status = 418 →
      getBinanceKlinesRun (r :: rest) =
        (.error "Binance API: IP banned (418). Please wait before retrying.", 1, [])) ∧
    (∀ (r : HttpResponse) (rest : List HttpResponse),
      ¬ (200 ≤ r.status ∧ r.status ≤ 299) → r.status ≠ 429 → r.status ≠ 418 →
      getBinanceKlinesRun (r :: rest) =
        (.error ("Binance API error: " ++ toString r.status), 1, [])) := by
  refine ⟨?_, ?_, ?_, ?_⟩
  · intro pre rest hpre
    induction pre with
    | nil => simp
    | cons r pre ih =>
      have hr : r.status = 429 := hpre r (by simp)
      have hnotok : ¬ (200 ≤ r.status ∧ r.status ≤ 299) := by omega
      have ih' := ih (fun x hx => hpre x (by simp [hx]))
      rw [List.cons_append]
      simp only [getBinanceKlinesRun]
      rw [if_neg hnotok, if_pos hr, ih']
      refine Prod.ext rfl (Prod.ext ?_ ?_) <;> simp <;> omega
  · intro r rest h1 h2
    simp [getBinanceKlinesRun, h1, h2]
  · intro r rest h418
    have hnotok : ¬ (200 ≤ r.status ∧ r.status ≤ 299) := by omega
    have hnot429 : ¬ r.status = 429 := by omega
    simp [getBinanceKlinesRun, hnotok, hnot429, h418]
  · intro r rest hnotok h429 h418
    simp [getBinanceKlinesRun, hnotok, h429, h418]

/-- Witness for C6's amended theorem: one 429 then one success gives one
retry, two requests, one 60 s wait. -/
theorem getBinanceKlines_failure_handling_witness :
    getBinanceKlinesRun ([⟨429, none, []⟩] ++ [⟨200, none, []⟩]) =
      ((getBinanceKlinesRun [⟨200, none, ([] : List Candle)⟩]).1,
       ([⟨429, none, ([] : List Candle)⟩] : List HttpResponse).length +
         (getBinanceKlinesRun [⟨200, none, ([] : List Candle)⟩]).2.1,
       ([⟨429, none, ([] : List Candle)⟩] : List HttpResponse).map waitFor429 ++
         (getBinanceKlinesRun [⟨200, none, ([] : List Candle)⟩]).2.2) :=
  getBinanceKlines_failure_handling.1 [⟨429, none, []⟩] [⟨200, none, []⟩]
    (by intro r hr; simp at hr; simp [hr])

/-! ## IncrementalCache cadence: `hasNewCandleAvailable` / `fetchMultipleRSI`

`getLatestExpectedCandleTime` floors the current time to the candle
interval; `hasNewCandleAvailable` compares that against the latest cached
candle time (0 when absent).  `fetchMultipleRSI` consults this check before
issuing any network fetch.  The model takes the current time, the cache
content and the would-be network results as explicit arguments and returns
the data together with a flag telling whether the network was hit. -/

def getLatestExpectedCandleTime (nowMs : ℕ) (intervalMs : ℕ) : ℕ :=
  nowMs / intervalMs * intervalMs

def hasNewCandleAvailable (nowMs : ℕ) (lastCandleTime : Option ℕ)
    (intervalMs : ℕ) : Bool :=
  getLatestExpectedCandleTime nowMs intervalMs > lastCandleTime.getD 0

/-- The result record built by `fetchRSIFromBinance`.  Numeric fields that
the source can set to `null` are `Option`s; `timestamp` (the latest
candle's close time) is always present on success. -/
structure RSIResult where
  timestamp : ℕ
  price : ℚ
  rsi : Option ℚ
  rsi_ma : Option ℚ
  previous_timestamp : Option ℕ
  previous_price : Option ℚ
  previous_rsi : Option ℚ
  previous_rsi_ma : Option ℚ
  change : Option ℚ
  change_ma : Option ℚ
  price_change : Option ℚ
  data_points : ℕ
deriving DecidableEq

/-- Cache-consultation logic of `fetchMultipleRSI` (bundled copy, lines
542-615): on a cache hit with a positive latest cached timestamp, a fresh
fetch happens only when a new hourly candle should be available; otherwise
the cached array is returned and no network call is made.  `fresh` is the
list of per-symbol results a network fetch would produce (`none` = failed
symbol, filtered out as in the source); the returned `Bool` records
whether the network was hit. -/
def fetchMultipleRSICore (cached : Option (List RSIResult × ℕ)) (nowMs : ℕ)
    (forceRefresh : Bool) (fresh : List (Option RSIResult)) :
    List RSIResult × Bool :=
  match cached with
  | some (data, storedAt) =>
    if forceRefresh = false ∧ data ≠ [] then
      let latestCachedTimestamp := data.foldl (fun mx it => max mx it.timestamp) 0
      if latestCachedTimestamp > 0 then
        if hasNewCandleAvailable nowMs (some latestCachedTimestamp) 3600000 then
          (fresh.filterMap id, true)
        else (data, false)
      else
        if nowMs - storedAt < 5 * 60 * 1000 then (data, false)
        else (fresh.filterMap id, true)
    else (fresh.filterMap id, true)
  | none => (fresh.filterMap id, true)

/-- C5: with cached RSI data whose latest candle close time is `t`, a
refresh at a time `now1` for which no new hourly candle has elapsed
returns the cached array unchanged with no network call, while a refresh
at a time `now2` past the next hour boundary fetches fresh data; and the
cadence check reports no update needed exactly when no new candle period
has elapsed since the latest cached timestamp. -/
theorem fetchMultipleRSI_cache_cadence (data : List RSIResult)
    (storedAt now1 now2 : ℕ) (fresh : List (Option RSIResult))
    (hne : data ≠ [])
    (hpos : 0 < data.foldl (fun mx it => max mx it.timestamp) 0)
    (hstale : hasNewCandleAvailable now1
      (some (data.foldl (fun mx it => max mx it.timestamp) 0)) 3600000 = false)
    (hfreshdue : hasNewCandleAvailable now2
      (some (data.foldl (fun mx it => max mx it.timestamp) 0)) 3600000 = true) :
    fetchMultipleRSICore (some (data, storedAt)) now1 false fresh = (data, false) ∧
    fetchMultipleRSICore (some (data, storedAt)) now2 false fresh =
      (fresh.filterMap id, true) ∧
    (∀ n t i : ℕ, hasNewCandleAvailable n (some t) i = false ↔ n / i * i ≤ t) := by
  refine ⟨?_, ?_, ?_⟩
  · simp only [fetchMultipleRSICore]
    rw [if_pos ⟨trivial, hne⟩, if_pos hpos, if_neg (by simp [hstale])]
  · simp only [fetchMultipleRSICore]
    rw [if_pos ⟨trivial, hne⟩, if_pos hpos, if_pos (by simp [hfreshdue])]
  · intro n t i
    simp [hasNewCandleAvailable, getLatestExpectedCandleTime]

/-- Witness for C5: the spec's Scenario D with ms-of-day times — cached
latest candle closes at 14:00 (50400000 ms), a refresh at 14:45
(53100000 ms) keeps the cache, a refresh at 15:01 (54060000 ms) fetches. -/
theorem fetchMultipleRSI_cache_cadence_witness :
    fetchMultipleRSICore
        (some ([⟨50400000, 1, none, none, none, none, none, none, none, none,
                 none, 0⟩], 50400500)) 53100000 false [] =
      ([⟨50400000, 1, none, none, none, none, none, none, none, none,
         none, 0⟩], false) ∧
    fetchMultipleRSICore
        (some ([⟨50400000, 1, none, none, none, none, none, none, none, none,
                 none, 0⟩], 50400500)) 54060000 false [] =
      (List.filterMap id [], true) ∧
    (∀ n t i : ℕ, hasNewCandleAvailable n (some t) i = false ↔ n / i * i ≤ t) :=
  fetchMultipleRSI_cache_cadence
    [⟨50400000, 1, none, none, none, none, none, none, none, none, none, 0⟩]
    50400500 53100000 54060000 []
    (by simp) (by norm_num) (by decide) (by decide)

/-! ## `fetchRSIFromBinance` (src/src/binance.js, lines 238-371)

The fetched klines are formatted and sorted ascending by close time, RSI
and its moving average are computed, the latest/previous readings are taken
positionally from the end, and an ordering-anomaly guard swaps the pair
when the positionally previous candle closes after the latest one.
`prev || null` extractions (falsy-coalescing) are modelled by
`jsOrNull0`. -/

/-- Comparator of `formattedData.sort((a, b) => a.closeTime - b.closeTime)`. -/
def befC (a b : Candle) : Bool := a.closeTime ≤ b.closeTime

/-- JS `x || null` on a nullable number: both `null` and `0` collapse to
`null`. -/
def jsOrNull0 (v : Option ℚ) : Option ℚ :=
  match v with
  | some x => if x = 0 then none else some x
  | none => none

/-- JS `arr[arr.length - 2]`: `undefined` (here `none`) when the array has
fewer than two elements. -/
def elemAt2 (l : List α) : Option α :=
  if 2 ≤ l.length then l.get? (l.length - 2) else none

/-- The RSI moving-average series: `maPeriod` leading nulls, then for each
`i ≥ maPeriod` the simple mean over the non-null RSI values in
`rsiValues.slice(i - maPeriod + 1, i + 1)` (null when that window has no
non-null value). -/
def rsiMAList (rsiValues : List (Option ℚ)) (maPeriod : ℕ) : List (Option ℚ) :=
  List.replicate maPeriod none ++
    (List.range (rsiValues.length - maPeriod)).map (fun k =>
      let i := maPeriod + k
      let win := ((rsiValues.drop (i + 1 - maPeriod)).take maPeriod).filterMap id
      if 0 < win.length then some (win.sum / (win.length : ℚ)) else none)

/-- Assembly of the `fetchRSIFromBinance` result from the sorted candle
series and the computed RSI series, including the ordering-anomaly swap.
In the normal branch the source computes `change` as
`previousRSI !== null ? latestRSI - previousRSI : null`; `previousRSI`
non-null forces `latestRSI` non-null (the last RSI index is past the
warm-up whenever the second-to-last is), so the double match is
equivalent. -/
def assembleRSIResult (fd : List Candle) (rsiValues : List (Option ℚ))
    (maPeriod : ℕ) : Option RSIResult :=
  let latestRSI := (rsiValues.get? (rsiValues.length - 1)).join
  let previousRSI := jsOrNull0 (elemAt2 rsiValues).join
  let rsiMA := rsiMAList rsiValues maPeriod
  let latestRSIMA := (rsiMA.get? (rsiMA.length - 1)).join
  let previousRSIMA := jsOrNull0 (elemAt2 rsiMA).join
  match fd.get? (fd.length - 1), elemAt2 fd with
  | some latestC, some prevC =>
    if prevC.closeTime > latestC.closeTime then
      -- ordering-anomaly guard: swap latest/previous before returning
      let swappedLatestRSI := match previousRSI with
        | some v => some v
        | none => latestRSI
      let swappedLatestRSIMA := match previousRSIMA with
        | some v => some v
        | none => latestRSIMA
      some {
        timestamp := prevC.closeTime
        price := prevC.close
        rsi := swappedLatestRSI
        rsi_ma := swappedLatestRSIMA
        previous_timestamp := some latestC.closeTime
        previous_price := some latestC.close
        previous_rsi := latestRSI
        previous_rsi_ma := latestRSIMA
        change := match latestRSI, swappedLatestRSI with
          | some p, some l => some (l - p)
          | _, _ => none
        change_ma := match latestRSIMA, swappedLatestRSIMA with
          | some p, some l => some (l - p)
          | _, _ => none
        price_change := some (prevC.close - latestC.close)
        data_points := fd.length }
    else
      some {
        timestamp := latestC.closeTime
        price := latestC.close
        rsi := latestRSI
        rsi_ma := latestRSIMA
        previous_timestamp := some prevC.closeTime
        previous_price := some prevC.close
        previous_rsi := previousRSI
        previous_rsi_ma := previousRSIMA
        change := match previousRSI, latestRSI with
          | some p, some l => some (l - p)
          | _, _ => none
        change_ma := match previousRSIMA, latestRSIMA with
          | some p, some l => some (l - p)
          | _, _ => none
        price_change := some (latestC.close - prevC.close)
        data_points := fd.length }
  | some latestC, none =>
    some {
      timestamp := latestC.closeTime
      price := latestC.close
      rsi := latestRSI
      rsi_ma := latestRSIMA
      previous_timestamp := none
      previous_price := none
      previous_rsi := previousRSI
      previous_rsi_ma := previousRSIMA
      change := match previousRSI, latestRSI with
        | some p, some l => some (l - p)
        | _, _ => none
      change_ma := match previousRSIMA, latestRSIMA with
        | some p, some l => some (l - p)
        | _, _ => none
      price_change := none
      data_points := fd.length }
  | none, _ => none

def fetchRSIFromBinanceCore (klines : List Candle) (period maPeriod : ℕ) :
    Option RSIResult :=
  if klines.isEmpty then none
  else
    match calculateRSI ((sortByStable befC klines).map Candle.close) period with
    | none => none
    | some rsiValues => assembleRSIResult (sortByStable befC klines) rsiValues maPeriod

theorem befC_total (a b : Candle) : befC a b = true ∨ befC b a = true := by
  simp [befC]
  omega

theorem befC_trans (a b c : Candle) :
    befC a b = true → befC b c = true → befC a c = true := by
  simp [befC]
  omega

/-- In a closeTime-sorted, closeTime-distinct series, the positionally
previous candle closes strictly before the positionally latest one. -/
theorem sorted_nodup_adjacent_lt (fd : List Candle)
    (hs : List.Sorted (fun a b => befC a b = true) fd)
    (hn : (fd.map Candle.closeTime).Nodup)
    (latestC prevC : Candle)
    (hg1 : fd.get? (fd.length - 1) = some latestC)
    (hg2 : elemAt2 fd = some prevC) :
    prevC.closeTime < latestC.closeTime := by
  unfold elemAt2 at hg2
  by_cases h2 : 2 ≤ fd.length
  · rw [if_pos h2] at hg2
    obtain ⟨hi, hgi⟩ := List.get?_eq_some.mp hg2
    obtain ⟨hj, hgj⟩ := List.get?_eq_some.mp hg1
    have hij : fd.length - 2 < fd.length - 1 := by omega
    have hle : befC (fd.get ⟨fd.length - 2, hi⟩) (fd.get ⟨fd.length - 1, hj⟩) = true :=
      List.pairwise_iff_get.mp hs ⟨fd.length - 2, hi⟩ ⟨fd.length - 1, hj⟩ hij
    rw [hgi, hgj] at hle
    have hlt : prevC.closeTime ≤ latestC.closeTime := by simpa [befC] using hle
    rcases lt_or_eq_of_le hlt with h | h
    · exact h
    · exfalso
      have hpw : List.Pairwise (fun a b => a ≠ b) (fd.map Candle.closeTime) := hn
      have hne := List.pairwise_iff_get.mp hpw
        ⟨fd.length - 2, by simpa using hi⟩ ⟨fd.length - 1, by simpa using hj⟩
        (by simpa [Fin.mk_lt_mk] using hij)
      apply hne
      simp only [List.get_eq_getElem, List.getElem_map]
      simp only [List.get_eq_getElem] at hgi hgj
      rw [hgi, hgj, h]
  · rw [if_neg h2] at hg2
    exact absurd hg2 (by simp)

/-- C7: on candle input with pairwise-distinct close times (as a real
candle series has), every `fetchRSIFromBinance` result carrying both
timestamps has `previous_timestamp` strictly earlier than `timestamp`;
the ordering-anomaly swap guarantees the structurally latest slot holds
the most recent close time. -/
theorem fetchRSI_previous_before_latest (klines : List Candle)
    (period maPeriod : ℕ) (res : RSIResult) (pt : ℕ)
    (hnodup : (klines.map Candle.closeTime).Nodup)
    (hres : fetchRSIFromBinanceCore klines period maPeriod = some res)
    (hpt : res.previous_timestamp = some pt) :
    pt < res.timestamp := by
  unfold fetchRSIFromBinanceCore at hres
  by_cases hemp : klines.isEmpty
  · rw [if_pos hemp] at hres
    exact absurd hres (by simp)
  · rw [if_neg hemp] at hres
    set fd := sortByStable befC klines with hfd
    have hsorted : List.Sorted (fun a b => befC a b = true) fd :=
      sortByStable_sorted befC befC_total befC_trans klines
    have hperm : List.Perm fd klines := sortByStable_perm befC klines
    have hnodupfd : (fd.map Candle.closeTime).Nodup :=
      ((hperm.map Candle.closeTime).nodup_iff).mpr hnodup
    rcases hcalc : calculateRSI (fd.map Candle.close) period with _ | rsiValues
    · rw [hcalc] at hres
      exact absurd hres (by simp)
    · rw [hcalc] at hres
      unfold assembleRSIResult at hres
      rcases hg1 : fd.get? (fd.length - 1) with _ | latestC
      · rw [hg1] at hres
        simp only [] at hres
        exact absurd hres (by simp)
      · rcases hg2 : elemAt2 fd with _ | prevC
        · rw [hg1, hg2] at hres
          simp only [] at hres
          injection hres with hres'
          rw [← hres'] at hpt
          exact absurd hpt (by simp)
        · rw [hg1, hg2] at hres
          simp only [] at hres
          have hlt := sorted_nodup_adjacent_lt fd hsorted hnodupfd latestC prevC hg1 hg2
          rw [if_neg (by omega)] at hres
          injection hres with hres'
          rw [← hres'] at hpt ⊢
          simp only [RSIResult.previous_timestamp] at hpt
          injection hpt with hpt'
          simpa [← hpt'] using hlt

/-- Witness for C7: three ascending one-close-per-candle klines,
`period = maPeriod = 1`. -/
theorem fetchRSI_previous_before_latest_witness :
    (2 : ℕ) < 3 :=
  fetchRSI_previous_before_latest
    [⟨1, 3, 3, 3⟩, ⟨2, 2, 2, 2⟩, ⟨3, 1, 1, 1⟩] 1 1
    ⟨3, 1, some 0, some 0, some 2, some 2, none, none, none, none,
      some (-1), 3⟩ 2
    (by decide)
    (by norm_num [fetchRSIFromBinanceCore, sortByStable, insortBy, befC,
      calculateRSI, rsiOf, wilder, assembleRSIResult, rsiMAList, elemAt2,
      jsOrNull0, List.range_succ, List.filterMap_cons, List.filterMap_nil])
    (by decide)

/-- C10: because `previous_rsi`/`previous_rsi_ma` are extracted with a
falsy-coalescing `|| null`, a previous-candle RSI (or RSI moving average)
of exactly 0 comes back as `null` rather than 0, and the derived
`change`/`change_ma` fields are then `null` too. -/
theorem fetchRSI_zero_previous_is_null (klines : List Candle)
    (period maPeriod : ℕ) (res : RSIResult) (rsiValues : List (Option ℚ))
    (hnodup : (klines.map Candle.closeTime).Nodup)
    (hres : fetchRSIFromBinanceCore klines period maPeriod = some res)
    (hcalc : calculateRSI ((sortByStable befC klines).map Candle.close) period =
      some rsiValues) :
    ((elemAt2 rsiValues).join = some 0 →
      res.previous_rsi = none ∧ res.change = none) ∧
    ((elemAt2 (rsiMAList rsiValues maPeriod)).join = some 0 →
      res.previous_rsi_ma = none ∧ res.change_ma = none) := by
  unfold fetchRSIFromBinanceCore at hres
  by_cases hemp : klines.isEmpty
  · rw [if_pos hemp] at hres
    exact absurd hres (by simp)
  · rw [if_neg hemp] at hres
    set fd := sortByStable befC klines with hfd
    have hsorted : List.Sorted (fun a b => befC a b = true) fd :=
      sortByStable_sorted befC befC_total befC_trans klines
    have hperm : List.Perm fd klines := sortByStable_perm befC klines
    have hnodupfd : (fd.map Candle.closeTime).Nodup :=
      ((hperm.map Candle.closeTime).nodup_iff).mpr hnodup
    rw [hcalc] at hres
    unfold assembleRSIResult at hres
    rcases hg1 : fd.get? (fd.length - 1) with _ | latestC
    · rw [hg1] at hres
      simp only [] at hres
      exact absurd hres (by simp)
    · rcases hg2 : elemAt2 fd with _ | prevC
      · rw [hg1, hg2] at hres
        simp only [] at hres
        injection hres with hres'
        constructor
        · intro h0
          rw [← hres']
          dsimp only
          rw [h0]
          simp [jsOrNull0]
        · intro h0
          rw [← hres']
          dsimp only
          rw [h0]
          simp [jsOrNull0]
      · rw [hg1, hg2] at hres
        simp only [] at hres
        have hlt := sorted_nodup_adjacent_lt fd hsorted hnodupfd latestC prevC hg1 hg2
        rw [if_neg (by omega)] at hres
        injection hres with hres'
        constructor
        · intro h0
          rw [← hres']
          dsimp only
          rw [h0]
          simp [jsOrNull0]
        · intro h0
          rw [← hres']
          dsimp only
          rw [h0]
          simp [jsOrNull0]

/-- Witness for C10: strictly falling closes `[3, 2, 1]` make every RSI
value 0; the previous RSI and RSI-MA are both exactly 0 and come back as
`null`, as do `change` and `change_ma`. -/
theorem fetchRSI_zero_previous_is_null_witness :
    ((elemAt2 [none, some 0, some 0] : Option (Option ℚ)).join = some 0 →
      (⟨3, 1, some 0, some 0, some 2, some 2, none, none, none, none,
        some (-1), 3⟩ : RSIResult).previous_rsi = none ∧
      (⟨3, 1, some 0, some 0, some 2, some 2, none, none, none, none,
        some (-1), 3⟩ : RSIResult).change = none) ∧
    ((elemAt2 (rsiMAList [none, some 0, some 0] 1) : Option (Option ℚ)).join =
        some 0 →
      (⟨3, 1, some 0, some 0, some 2, some 2, none, none, none, none,
        some (-1), 3⟩ : RSIResult).previous_rsi_ma = none ∧
      (⟨3, 1, some 0, some 0, some 2, some 2, none, none, none, none,
        some (-1), 3⟩ : RSIResult).change_ma = none) :=
  fetchRSI_zero_previous_is_null
    [⟨1, 3, 3, 3⟩, ⟨2, 2, 2, 2⟩, ⟨3, 1, 1, 1⟩] 1 1
    ⟨3, 1, some 0, some 0, some 2, some 2, none, none, none, none,
      some (-1), 3⟩
    [none, some 0, some 0]
    (by decide)
    (by norm_num [fetchRSIFromBinanceCore, sortByStable, insortBy, befC,
      calculateRSI, rsiOf, wilder, assembleRSIResult, rsiMAList, elemAt2,
      jsOrNull0, List.range_succ, List.filterMap_cons, List.filterMap_nil])
    (by norm_num [sortByStable, insortBy, befC, calculateRSI, rsiOf, wilder])

/-! ## OversoldExtractor / IncrementalCache merge (`fetchOversoldHistory`)

Oversold events are filtered per symbol (`rsi <= rsiThreshold`), merged
with the cached collection, sorted by timestamp descending (stable
`Array.prototype.sort`) and deduplicated keeping the first occurrence of
each `${symbol}_${timestamp}` key.  The source renames each event's symbol
(`symbol.replace('/USDT', '')`) before this point; cached events were
stored after the same rename, so the model carries final symbol values. -/

structure OEvent where
  symbol : String
  timestamp : ℕ
  rsi : ℚ
  price : ℚ
deriving DecidableEq

/-- Dedup key `` `${event.symbol}_${new Date(event.timestamp).getTime()}` ``. -/
def okey (e : OEvent) : String × ℕ := (e.symbol, e.timestamp)

/-- Comparator `(a, b) => new Date(b.timestamp) - new Date(a.timestamp)`
(descending by timestamp). -/
def befE (a b : OEvent) : Bool := b.timestamp ≤ a.timestamp

def dedupByKeyAux (seen : List (String × ℕ)) : List OEvent → List OEvent
  | [] => []
  | e :: t =>
    if okey e ∈ seen then dedupByKeyAux seen t
    else e :: dedupByKeyAux (okey e :: seen) t

/-- The `seen`-set loop removing duplicate `(symbol, timestamp)` events,
keeping the first occurrence. -/
def dedupByKey (l : List OEvent) : List OEvent := dedupByKeyAux [] l

/-- The merge-and-deduplicate step of the incremental caches: concatenate
cached data and increment, sort descending by timestamp, drop later
duplicates. -/
def mergeDedupSort (cached incr : List OEvent) : List OEvent :=
  dedupByKey (sortByStable befE (cached ++ incr))

/-- Cache/merge structure of `fetchOversoldHistory` (bundled copy, lines
728-792).  `perSymbolFetched` holds the per-symbol `fetchHistoricalRSI`
results a fetch would produce; a fetch only happens when forced or when a
new hourly candle is due, and when the fetch yields no new events the
cached array is returned as-is. -/
def fetchOversoldHistoryCore (cachedOpt : Option (List OEvent)) (nowMs : ℕ)
    (forceRefresh : Bool) (perSymbolFetched : List (List OEvent))
    (rsiThreshold : ℚ) : List OEvent :=
  let allEvents :=
    (perSymbolFetched.map (fun l => l.filter (fun e => e.rsi ≤ rsiThreshold))).join
  match cachedOpt with
  | some cd =>
    if cd ≠ [] then
      let maxTimestamp := (cd.map OEvent.timestamp).foldl max 0
      if forceRefresh = false ∧
          hasNewCandleAvailable nowMs (some maxTimestamp) 3600000 = false then cd
      else if allEvents = [] then cd
      else mergeDedupSort cd allEvents
    else dedupByKey (sortByStable befE allEvents)
  | none => dedupByKey (sortByStable befE allEvents)

theorem befE_total (a b : OEvent) : befE a b = true ∨ befE b a = true := by
  simp [befE]
  omega

theorem befE_trans (a b c : OEvent) :
    befE a b = true → befE b c = true → befE a c = true := by
  simp [befE]
  omega

theorem dedupByKeyAux_sublist (seen : List (String × ℕ)) (l : List OEvent) :
    List.Sublist (dedupByKeyAux seen l) l := by
  induction l generalizing seen with
  | nil => simp [dedupByKeyAux]
  | cons e t ih =>
    by_cases h : okey e ∈ seen
    · simp only [dedupByKeyAux, h, if_pos]
      exact (ih seen).cons e
    · simp only [dedupByKeyAux, h, if_neg, not_false_iff]
      exact (ih (okey e :: seen)).cons₂ e

theorem mem_of_mem_dedupByKeyAux {seen : List (String × ℕ)} {l : List OEvent}
    {e : OEvent} (h : e ∈ dedupByKeyAux seen l) : e ∈ l :=
  (dedupByKeyAux_sublist seen l).mem h

theorem dedupByKeyAux_key_nodup (seen : List (String × ℕ)) (l : List OEvent) :
    ((dedupByKeyAux seen l).map okey).Nodup ∧
      ∀ e ∈ dedupByKeyAux seen l, okey e ∉ seen := by
  induction l generalizing seen with
  | nil => simp [dedupByKeyAux]
  | cons e t ih =>
    by_cases h : okey e ∈ seen
    · simp only [dedupByKeyAux, h, if_pos]
      exact ih seen
    · simp only [dedupByKeyAux, h, if_neg, not_false_iff, List.map_cons]
      obtain ⟨ihn, ihs⟩ := ih (okey e :: seen)
      refine ⟨List.nodup_cons.mpr ⟨?_, ihn⟩, ?_⟩
      · intro hmem
        obtain ⟨x, hx, hkx⟩ := List.mem_map.mp hmem
        exact (ihs x hx) (by simp [hkx])
      · intro x hx
        rcases List.mem_cons.mp hx with rfl | hx
        · exact h
        · intro hxs
          exact (ihs x hx) (by simp [hxs])

theorem dedupByKeyAux_key_mem (seen : List (String × ℕ)) (l : List OEvent)
    (k : String × ℕ) :
    k ∈ (dedupByKeyAux seen l).map okey ↔ k ∈ l.map okey ∧ k ∉ seen := by
  induction l generalizing seen with
  | nil => simp [dedupByKeyAux]
  | cons e t ih =>
    by_cases h : okey e ∈ seen
    · simp only [dedupByKeyAux, h, if_pos, List.map_cons, List.mem_cons]
      rw [ih seen]
      constructor
      · rintro ⟨hm, hs⟩
        exact ⟨Or.inr hm, hs⟩
      · rintro ⟨hm | hm, hs⟩
        · exact absurd (hm ▸ h) hs
        · exact ⟨hm, hs⟩
    · simp only [dedupByKeyAux, h, if_neg, not_false_iff, List.map_cons,
        List.mem_cons]
      rw [ih (okey e :: seen)]
      constructor
      · rintro (rfl | ⟨hm, hs⟩)
        · exact ⟨Or.inl rfl, h⟩
        · refine ⟨Or.inr hm, fun hk => hs (by simp [hk])⟩
      · rintro ⟨rfl | hm, hs⟩
        · exact Or.inl rfl
        · by_cases hke : k = okey e
          · exact Or.inl hke
          · exact Or.inr ⟨hm, by simp [hke, hs]⟩

theorem dedupByKeyAux_congr (s₁ s₂ : List (String × ℕ)) (l : List OEvent)
    (h : ∀ x, x ∈ s₁ ↔ x ∈ s₂) :
    dedupByKeyAux s₁ l = dedupByKeyAux s₂ l := by
  induction l generalizing s₁ s₂ with
  | nil => rfl
  | cons e t ih =>
    by_cases h1 : okey e ∈ s₁
    · have h2 : okey e ∈ s₂ := (h (okey e)).mp h1
      simp only [dedupByKeyAux, h1, h2, if_pos]
      exact ih s₁ s₂ h
    · have h2 : okey e ∉ s₂ := fun hx => h1 ((h (okey e)).mpr hx)
      simp only [dedupByKeyAux, h1, h2, if_neg, not_false_iff]
      refine congrArg (e :: ·) (ih _ _ ?_)
      intro x
      simp [h x]

theorem dedupByKeyAux_cons_filter (k : String × ℕ) (seen : List (String × ℕ))
    (l : List OEvent) :
    dedupByKeyAux (k :: seen) l =
      dedupByKeyAux seen (l.filter (fun e => okey e ≠ k)) := by
  induction l generalizing seen with
  | nil => rfl
  | cons e t ih =>
    by_cases hek : okey e = k
    · have : okey e ∈ k :: seen := by simp [hek]
      simp only [dedupByKeyAux, this, if_pos, List.filter_cons]
      rw [if_neg (by simp [hek])]
      exact ih seen
    · simp only [List.filter_cons]
      rw [if_pos (by simp [hek])]
      by_cases hes : okey e ∈ seen
      · have : okey e ∈ k :: seen := by simp [hes]
        simp only [dedupByKeyAux, this, if_pos, hes]
        exact ih seen
      · have h1 : okey e ∉ k :: seen := by simp [hek, hes]
        simp only [dedupByKeyAux, h1, hes, if_neg, not_false_iff]
        refine congrArg (e :: ·) ?_
        rw [dedupByKeyAux_congr (okey e :: k :: seen) (k :: okey e :: seen) t
          (by intro x; constructor <;> (intro hx; simp at hx ⊢; tauto))]
        exact ih (okey e :: seen)

/-- Folding the canonical form: merging an increment whose keys all occur
in a sorted, key-distinct collection returns that collection unchanged. -/
theorem dedup_sort_append_eq (m i : List OEvent)
    (hs : List.Sorted (fun a b => befE a b = true) m)
    (hn : (m.map okey).Nodup)
    (hk : ∀ e ∈ i, okey e ∈ m.map okey) :
    dedupByKey (sortByStable befE (m ++ i)) = m := by
  induction m generalizing i with
  | nil =>
    cases i with
    | nil => rfl
    | cons e t => exact absurd (hk e (by simp)) (by simp)
  | cons a m' ih =>
    have hts : ∀ x ∈ m' ++ i, x.timestamp ≤ a.timestamp := by
      intro x hx
      rcases List.mem_append.mp hx with hx | hx
      · have := List.rel_of_sorted_cons hs x hx
        simpa [befE] using this
      · have hkx := hk x hx
        simp only [List.map_cons, List.mem_cons] at hkx
        rcases hkx with hkx | hkx
        · have : x.timestamp = a.timestamp := congrArg Prod.snd hkx
          omega
        · obtain ⟨b, hb, hkb⟩ := List.mem_map.mp hkx
          have h1 : x.timestamp = b.timestamp := (congrArg Prod.snd hkb).symm
          have h2 := List.rel_of_sorted_cons hs b hb
          simp [befE] at h2
          omega
    have hstep : sortByStable befE ((a :: m') ++ i) =
        a :: sortByStable befE (m' ++ i) := by
      rw [List.cons_append, sortByStable_cons]
      refine insortBy_of_forall befE a _ ?_
      intro x hx
      have := (mem_sortByStable befE (m' ++ i) x).mp hx
      simpa [befE] using hts x this
    rw [hstep]
    have hkaex : okey a ∉ List.map okey m' := (List.nodup_cons.mp hn).1
    have hstep2 : dedupByKey (a :: sortByStable befE (m' ++ i)) =
        a :: dedupByKeyAux [okey a] (sortByStable befE (m' ++ i)) := by
      simp [dedupByKey, dedupByKeyAux]
    rw [hstep2, dedupByKeyAux_cons_filter (okey a) []]
    rw [filter_sortByStable befE befE_total befE_trans _ (m' ++ i)]
    have hfm : (m' ++ i).filter (fun e => decide ¬okey e = okey a) =
        m' ++ i.filter (fun e => decide ¬okey e = okey a) := by
      rw [List.filter_append]
      congr 1
      rw [List.filter_eq_self]
      intro b hb
      simp only [decide_eq_true_iff]
      intro hkb
      exact hkaex (by rw [← hkb]; exact List.mem_map_of_mem okey hb)
    rw [hfm]
    have := ih (i.filter (fun e => decide ¬okey e = okey a)) hs.of_cons
      (by simpa using hn.of_cons) ?_
    · exact congrArg (a :: ·) this
    · intro e he
      have hmem := List.mem_of_mem_filter he
      have hne : okey e ≠ okey a := by
        have := List.of_mem_filter he
        simpa using this
      have hkm := hk e hmem
      simp only [List.map_cons, List.mem_cons] at hkm
      rcases hkm with hkm | hkm
      · exact absurd hkm hne
      · exact hkm

/-- The canonical merge yields a sorted, key-distinct collection whose
events all come from the inputs. -/
theorem mergeDedupSort_inv (c i : List OEvent) :
    (∀ e ∈ mergeDedupSort c i, e ∈ c ∨ e ∈ i) ∧
    ((mergeDedupSort c i).map okey).Nodup ∧
    List.Sorted (fun a b => befE a b = true) (mergeDedupSort c i) := by
  refine ⟨?_, ?_, ?_⟩
  · intro e he
    have h1 := mem_of_mem_dedupByKeyAux he
    have h2 := (mem_sortByStable befE (c ++ i) e).mp h1
    exact List.mem_append.mp h2
  · exact (dedupByKeyAux_key_nodup [] _).1
  · exact (sortByStable_sorted befE befE_total befE_trans (c ++ i)).sublist
      (dedupByKeyAux_sublist [] _)

/-- C9: the cache merge-and-deduplicate step is idempotent — merging the
same increment twice yields exactly the same deduplicated, time-sorted
collection as merging it once. -/
theorem mergeDedupSort_idempotent (cached incr : List OEvent) :
    mergeDedupSort (mergeDedupSort cached incr) incr =
      mergeDedupSort cached incr := by
  obtain ⟨hmem, hnodup, hsorted⟩ := mergeDedupSort_inv cached incr
  refine dedup_sort_append_eq _ incr hsorted hnodup ?_
  intro e he
  simp only [mergeDedupSort, dedupByKey]
  rw [dedupByKeyAux_key_mem]
  refine ⟨?_, by simp⟩
  have : okey e ∈ (cached ++ incr).map okey :=
    List.mem_map_of_mem okey (List.mem_append.mpr (Or.inr he))
  have hperm : List.Perm ((sortByStable befE (cached ++ incr)).map okey)
      ((cached ++ incr).map okey) :=
    (sortByStable_perm befE (cached ++ incr)).map okey
  exact hperm.mem_iff.mpr this

/-- C8: every array `fetchOversoldHistory` returns — given that the cached
collection it starts from is itself a previous return value (so satisfies
the same invariant) — contains only events with `rsi ≤ threshold`, has no
two events with the same (symbol, timestamp) key, and is sorted by
timestamp descending. -/
theorem fetchOversoldHistory_spec (cachedOpt : Option (List OEvent))
    (nowMs : ℕ) (forceRefresh : Bool) (perSymbolFetched : List (List OEvent))
    (rsiThreshold : ℚ)
    (hc : ∀ cd, cachedOpt = some cd →
      (∀ e ∈ cd, e.rsi ≤ rsiThreshold) ∧ (cd.map okey).Nodup ∧
        List.Sorted (fun a b => befE a b = true) cd) :
    (∀ e ∈ fetchOversoldHistoryCore cachedOpt nowMs forceRefresh
        perSymbolFetched rsiThreshold, e.rsi ≤ rsiThreshold) ∧
    ((fetchOversoldHistoryCore cachedOpt nowMs forceRefresh
        perSymbolFetched rsiThreshold).map okey).Nodup ∧
    List.Sorted (fun a b => befE a b = true)
      (fetchOversoldHistoryCore cachedOpt nowMs forceRefresh
        perSymbolFetched rsiThreshold) := by
  have hall : ∀ e ∈ (perSymbolFetched.map
      (fun l => l.filter (fun e => e.rsi ≤ rsiThreshold))).join,
      e.rsi ≤ rsiThreshold := by
    intro e he
    obtain ⟨l, hl, hel⟩ := List.mem_join.mp he
    obtain ⟨l₀, _, rfl⟩ := List.mem_map.mp hl
    have := List.of_mem_filter hel
    simpa using this
  have hfromNothing : ∀ allE : List OEvent, (∀ e ∈ allE, e.rsi ≤ rsiThreshold) →
      (∀ e ∈ dedupByKey (sortByStable befE allE), e.rsi ≤ rsiThreshold) ∧
      ((dedupByKey (sortByStable befE allE)).map okey).Nodup ∧
      List.Sorted (fun a b => befE a b = true)
        (dedupByKey (sortByStable befE allE)) := by
    intro allE hbound
    refine ⟨?_, (dedupByKeyAux_key_nodup [] _).1,
      (sortByStable_sorted befE befE_total befE_trans allE).sublist
        (dedupByKeyAux_sublist [] _)⟩
    intro e he
    exact hbound e ((mem_sortByStable befE allE e).mp (mem_of_mem_dedupByKeyAux he))
  rcases cachedOpt with _ | cd
  · simp only [fetchOversoldHistoryCore]
    exact hfromNothing _ hall
  · obtain ⟨hcb, hcn, hcs⟩ := hc cd rfl
    simp only [fetchOversoldHistoryCore]
    by_cases hne : cd ≠ []
    · rw [if_pos hne]
      split
      · exact ⟨hcb, hcn, hcs⟩
      · split
        · exact ⟨hcb, hcn, hcs⟩
        · obtain ⟨hm, hn2, hs2⟩ := mergeDedupSort_inv cd
            ((perSymbolFetched.map
              (fun l => l.filter (fun e => e.rsi ≤ rsiThreshold))).join)
          refine ⟨?_, hn2, hs2⟩
          intro e he
          rcases hm e he with h | h
          · exact hcb e h
          · exact hall e h
    · rw [if_neg hne]
      exact hfromNothing _ hall

/-- Witness for C8: a one-event cache satisfying the invariant and one
fetched symbol list with an above-threshold event that gets filtered out. -/
theorem fetchOversoldHistory_spec_witness :
    (∀ e ∈ fetchOversoldHistoryCore (some [⟨"BTC", 7200000, 25, 5⟩])
        10800500 true [[⟨"ETH", 10800000, 28, 9⟩, ⟨"ETH", 7200000, 55, 9⟩]] 30,
      e.rsi ≤ 30) ∧
    ((fetchOversoldHistoryCore (some [⟨"BTC", 7200000, 25, 5⟩])
        10800500 true [[⟨"ETH", 10800000, 28, 9⟩, ⟨"ETH", 7200000, 55, 9⟩]] 30).map
        okey).Nodup ∧
    List.Sorted (fun a b => befE a b = true)
      (fetchOversoldHistoryCore (some [⟨"BTC", 7200000, 25, 5⟩])
        10800500 true [[⟨"ETH", 10800000, 28, 9⟩, ⟨"ETH", 7200000, 55, 9⟩]] 30) :=
  fetchOversoldHistory_spec (some [⟨"BTC", 7200000, 25, 5⟩]) 10800500 true
    [[⟨"ETH", 10800000, 28, 9⟩, ⟨"ETH", 7200000, 55, 9⟩]] 30
    (by
      intro cd hcd
      injection hcd with hcd'
      subst hcd'
      refine ⟨?_, by simp [okey], by simp [List.Sorted]⟩
      intro e he
      simp at he
      subst he
      norm_num)

/-! ## BreakoutDetector: per-day breakout/re-entry scan

The inner per-day loop of `detectBreakoutSignals` (bundled copy, lines
~1516-1760) over the 5-minute candles after the session range closes.
Loop state: the signals created so far (most recent first — the source
mutates `validBreakoutReentryPairs[length - 1]`), whether a position is
open, and the first breakout awaiting re-entry.  A `Pair` mirrors a
`validBreakoutReentryPairs` entry; `breakoutIdx`/`reentryIdx` record the
source's `firstBreakoutIndex` and re-entry loop index `i`, which the
source uses to slice `candlesDuringBreakout` for the stop-loss
computation. -/

structure Pair where
  breakoutIdx : ℕ
  reentryIdx : ℕ
  breakoutTime : ℕ
  breakoutPrice : ℚ
  breakoutDirection : Direction
  reentryTime : ℕ
  reentryPrice : ℚ
  entryPrice : ℚ
  stopLoss : ℚ
  takeProfit : ℚ
  result : TradeResult
  breakoutCandle : Candle
  reentryCandle : Candle
deriving DecidableEq

structure FirstB where
  idx : ℕ
  candle : Candle
  dir : Direction
deriving DecidableEq

structure ScanState where
  sigs : List Pair
  openPos : Bool
  firstB : Option FirstB
deriving DecidableEq

/-- `lowestPrice` scan: start from the window's first candle's low,
lower it on every strictly smaller low. -/
def windowLowest : List Candle → ℚ
  | [] => 0
  | c :: rest =>
    (c :: rest).foldl (fun acc d => if d.low < acc then d.low else acc) c.low

/-- `highestPrice` scan: start from the window's first candle's high,
raise it on every strictly greater high. -/
def windowHighest : List Candle → ℚ
  | [] => 0
  | c :: rest =>
    (c :: rest).foldl (fun acc d => if d.high > acc then d.high else acc) c.high

/-- Final fallback when neither the re-entry candle nor the previous
candle shows the re-entry side: use the breakout price's side, then the
initially recorded breakout direction. -/
def breakoutFallbackDir (rangeHigh rangeLow breakoutPrice : ℚ)
    (breakoutDir : Direction) : Direction :=
  if breakoutPrice > rangeHigh then .short
  else if breakoutPrice < rangeLow then .long
  else breakoutDir

/-- Trading direction at re-entry: the re-entry candle's own excursion
decides first (low below range → long, high above range → short), then the
previous candle's position, then the breakout-price fallback. -/
def reentryDirection (rangeHigh rangeLow : ℚ) (c : Candle) (prev : Option Candle)
    (breakoutPrice : ℚ) (breakoutDir : Direction) : Direction :=
  if c.low < rangeLow then .long
  else if c.high > rangeHigh then .short
  else
    match prev with
    | some p =>
      if p.close < rangeLow ∨ p.low < rangeLow then .long
      else if p.close > rangeHigh ∨ p.high > rangeHigh then .short
      else breakoutFallbackDir rangeHigh rangeLow breakoutPrice breakoutDir
    | none => breakoutFallbackDir rangeHigh rangeLow breakoutPrice breakoutDir

/-- Signal creation at re-entry candle `i`: entry at the re-entry close,
stop-loss from the most adverse price across
`candlesAfterRange.slice(firstBreakoutIndex, i + 1)` capped at 1% of the
entry price, take-profit at twice the risk. -/
def mkPair (rangeHigh rangeLow : ℚ) (candles : List Candle) (fb : FirstB)
    (i : ℕ) (c : Candle) : Pair :=
  let entry := c.close
  let prev := if 0 < i then candles.get? (i - 1) else none
  let dir := reentryDirection rangeHigh rangeLow c prev fb.candle.close fb.dir
  let window := (candles.drop fb.idx).take (i + 1 - fb.idx)
  let maxAllowedRisk := entry * 0.01
  match dir with
  | .long =>
    let lowestPrice := windowLowest window
    let calculatedRisk := entry - lowestPrice
    let risk := if calculatedRisk > maxAllowedRisk then maxAllowedRisk
      else calculatedRisk
    { breakoutIdx := fb.idx
      reentryIdx := i
      breakoutTime := fb.candle.closeTime
      breakoutPrice := fb.candle.close
      breakoutDirection := dir
      reentryTime := c.closeTime
      reentryPrice := c.close
      entryPrice := entry
      stopLoss := if calculatedRisk > maxAllowedRisk then entry - risk
        else lowestPrice
      takeProfit := entry + risk * 2
      result := .pending
      breakoutCandle := fb.candle
      reentryCandle := c }
  | .short =>
    let highestPrice := windowHighest window
    let calculatedRisk := highestPrice - entry
    let risk := if calculatedRisk > maxAllowedRisk then maxAllowedRisk
      else calculatedRisk
    { breakoutIdx := fb.idx
      reentryIdx := i
      breakoutTime := fb.candle.closeTime
      breakoutPrice := fb.candle.close
      breakoutDirection := dir
      reentryTime := c.closeTime
      reentryPrice := c.close
      entryPrice := entry
      stopLoss := if calculatedRisk > maxAllowedRisk then entry + risk
        else highestPrice
      takeProfit := entry - risk * 2
      result := .pending
      breakoutCandle := fb.candle
      reentryCandle := c }

/-- Open-position management at the top of the loop body: when a position
is open and the last signal is pending, check this candle (stop-loss
first); a closing candle falls through (`Bool = false`), a non-closing
candle skips the rest of the iteration (`Bool = true`). -/
def scanPhase1 (c : Candle) (st : ScanState) : ScanState × Bool :=
  if st.openPos then
    match st.sigs with
    | s :: restSigs =>
      if s.result = .pending then
        match checkCandleClose s.breakoutDirection s.stopLoss s.takeProfit c with
        | some r => (⟨{ s with result := r } :: restSigs, false, st.firstB⟩, false)
        | none => (st, true)
      else (⟨st.sigs, false, st.firstB⟩, false)
    | [] => (⟨st.sigs, false, st.firstB⟩, false)
  else (st, false)

/-- Breakout detection / re-entry handling for one candle (reached when no
open position blocked the iteration). -/
def scanPhase2 (rangeHigh rangeLow : ℚ) (candles : List Candle) (i : ℕ)
    (c : Candle) (st1 : ScanState) : ScanState :=
  match st1.firstB with
  | none =>
    if c.close > rangeHigh ∨ c.close < rangeLow then
      { st1 with firstB := some ⟨i, c,
          if c.close > rangeHigh then .short else .long⟩ }
    else st1
  | some fb =>
    if c.close > rangeHigh ∨ c.close < rangeLow then st1
    else if c.close ≤ rangeHigh ∧ c.close ≥ rangeLow then
      { sigs := mkPair rangeHigh rangeLow candles fb i c :: st1.sigs,
        openPos := true, firstB := none }
    else st1

def scanStep (rangeHigh rangeLow : ℚ) (candles : List Candle) (i : ℕ)
    (c : Candle) (st : ScanState) : ScanState :=
  let p1 := scanPhase1 c st
  if p1.2 then p1.1
  else scanPhase2 rangeHigh rangeLow candles i c p1.1

def scanList (rangeHigh rangeLow : ℚ) (candles : List Candle) :
    ℕ → List Candle → ScanState → ScanState
  | _, [], st => st
  | i, c :: rest, st =>
    scanList rangeHigh rangeLow candles (i + 1) rest
      (scanStep rangeHigh rangeLow candles i c st)

/-- `validBreakoutReentryPairs.sort((a, b) => a.breakoutTime - b.breakoutTime)`. -/
def befP (a b : Pair) : Bool := a.breakoutTime ≤ b.breakoutTime

/-- The per-day signal list: scan all candles after the range, then sort
the created pairs chronologically by breakout time. -/
def detectBreakoutSignalsDay (rangeHigh rangeLow : ℚ)
    (candles : List Candle) : List Pair :=
  sortByStable befP
    ((scanList rangeHigh rangeLow candles 0 candles ⟨[], false, none⟩).sigs.reverse)

/-- Provenance and risk/direction facts carried by every created signal:
its candles sit at the recorded indices, the entry is the re-entry close,
the direction comes from `reentryDirection`, and stop-loss/take-profit
realise `risk = min(extreme adverse distance over the breakout-to-re-entry
window, 1% of entry)`. -/
def SigP (rangeHigh rangeLow : ℚ) (candles : List Candle) (s : Pair) : Prop :=
  s.breakoutIdx < s.reentryIdx ∧
  s.reentryIdx < candles.length ∧
  candles.get? s.reentryIdx = some s.reentryCandle ∧
  candles.get? s.breakoutIdx = some s.breakoutCandle ∧
  s.breakoutTime = s.breakoutCandle.closeTime ∧
  s.breakoutPrice = s.breakoutCandle.close ∧
  s.reentryTime = s.reentryCandle.closeTime ∧
  s.reentryPrice = s.reentryCandle.close ∧
  s.entryPrice = s.reentryCandle.close ∧
  (∃ d₀, s.breakoutDirection =
    reentryDirection rangeHigh rangeLow s.reentryCandle
      (candles.get? (s.reentryIdx - 1)) s.breakoutPrice d₀) ∧
  (s.breakoutDirection = .long →
    s.stopLoss = s.entryPrice - min
      (s.entryPrice - windowLowest
        ((candles.drop s.breakoutIdx).take (s.reentryIdx + 1 - s.breakoutIdx)))
      (s.entryPrice * 0.01) ∧
    s.takeProfit = s.entryPrice + min
      (s.entryPrice - windowLowest
        ((candles.drop s.breakoutIdx).take (s.reentryIdx + 1 - s.breakoutIdx)))
      (s.entryPrice * 0.01) * 2) ∧
  (s.breakoutDirection = .short →
    s.stopLoss = s.entryPrice + min
      (windowHighest
        ((candles.drop s.breakoutIdx).take (s.reentryIdx + 1 - s.breakoutIdx)) -
        s.entryPrice)
      (s.entryPrice * 0.01) ∧
    s.takeProfit = s.entryPrice - min
      (windowHighest
        ((candles.drop s.breakoutIdx).take (s.reentryIdx + 1 - s.breakoutIdx)) -
        s.entryPrice)
      (s.entryPrice * 0.01) * 2)

theorem ite_gt_eq_min (a b : ℚ) : (if a > b then b else a) = min a b := by
  rcases le_or_lt a b with h | h
  · rw [if_neg (not_lt.mpr h), min_eq_left h]
  · rw [if_pos h, min_eq_right (le_of_lt h)]

theorem mkPair_SigP (rangeHigh rangeLow : ℚ) (candles : List Candle)
    (fb : FirstB) (i : ℕ) (c : Candle)
    (hfb : candles.get? fb.idx = some fb.candle) (hlt : fb.idx < i)
    (hc : candles.get? i = some c) (hilen : i < candles.length) :
    SigP rangeHigh rangeLow candles (mkPair rangeHigh rangeLow candles fb i c) := by
  have h0i : (0 : ℕ) < i := by omega
  unfold SigP mkPair
  rw [if_pos h0i]
  simp only []
  rcases hdir : reentryDirection rangeHigh rangeLow c (candles.get? (i - 1))
      fb.candle.close fb.dir with _ | _
  · -- direction long
    simp only []
    refine ⟨hlt, hilen, hc, hfb, trivial, trivial, trivial, trivial, trivial,
      ⟨fb.dir, hdir.symm⟩, ?_, ?_⟩
    · intro _
      set w := (candles.drop fb.idx).take (i + 1 - fb.idx) with hw
      set entry := c.close with hentry
      constructor
      · by_cases hcap : entry - windowLowest w > entry * 0.01
        · rw [if_pos hcap, if_pos hcap,
            min_eq_right (le_of_lt hcap)]
        · rw [if_neg hcap, min_eq_left (not_lt.mp hcap)]
          ring_nf
      · rw [ite_gt_eq_min]
    · intro hcontra
      simp at hcontra
  · -- direction short
    simp only []
    refine ⟨hlt, hilen, hc, hfb, trivial, trivial, trivial, trivial, trivial,
      ⟨fb.dir, hdir.symm⟩, ?_, ?_⟩
    · intro hcontra
      simp at hcontra
    · intro _
      set w := (candles.drop fb.idx).take (i + 1 - fb.idx) with hw
      set entry := c.close with hentry
      constructor
      · by_cases hcap : windowHighest w - entry > entry * 0.01
        · rw [if_pos hcap, if_pos hcap, min_eq_right (le_of_lt hcap)]
        · rw [if_neg hcap, min_eq_left (not_lt.mp hcap)]
          ring_nf
      · rw [ite_gt_eq_min]

/-- Loop invariant of the per-day scan: every created signal satisfies
`SigP`, and a recorded first breakout sits at an already-processed index
holding its own candle. -/
def StInv (rangeHigh rangeLow : ℚ) (candles : List Candle) (i : ℕ)
    (st : ScanState) : Prop :=
  (∀ s ∈ st.sigs, SigP rangeHigh rangeLow candles s) ∧
  ∀ fb, st.firstB = some fb →
    fb.idx < i ∧ candles.get? fb.idx = some fb.candle

theorem SigP_result_update (rangeHigh rangeLow : ℚ) (candles : List Candle)
    (s : Pair) (r : TradeResult) (h : SigP rangeHigh rangeLow candles s) :
    SigP rangeHigh rangeLow candles { s with result := r } := h

theorem scanPhase1_shape (c : Candle) (st : ScanState) :
    ((scanPhase1 c st).1.sigs = st.sigs ∨
      ∃ s rest r, st.sigs = s :: rest ∧
        (scanPhase1 c st).1.sigs = { s with result := r } :: rest) ∧
    (scanPhase1 c st).1.firstB = st.firstB := by
  unfold scanPhase1
  by_cases hop : st.openPos
  · simp only [hop, if_true]
    cases hsg : st.sigs with
    | nil => simp [hsg]
    | cons s rest =>
      simp only []
      by_cases hp : s.result = .pending
      · rw [if_pos hp]
        cases hchk : checkCandleClose s.breakoutDirection s.stopLoss s.takeProfit c with
        | some r =>
          simp only []
          exact ⟨Or.inr ⟨s, rest, r, rfl, rfl⟩, trivial⟩
        | none => simp [hsg]
      · rw [if_neg hp]
        simp [hsg]
  · simp [hop]

theorem scanPhase2_inv (rangeHigh rangeLow : ℚ) (candles : List Candle)
    (i : ℕ) (c : Candle) (st1 : ScanState)
    (h1 : ∀ s ∈ st1.sigs, SigP rangeHigh rangeLow candles s)
    (h2 : ∀ fb, st1.firstB = some fb →
      fb.idx < i ∧ candles.get? fb.idx = some fb.candle)
    (hc : candles.get? i = some c) (hilen : i < candles.length) :
    StInv rangeHigh rangeLow candles (i + 1)
      (scanPhase2 rangeHigh rangeLow candles i c st1) := by
  unfold scanPhase2
  cases hfb : st1.firstB with
  | none =>
    by_cases hbr : c.close > rangeHigh ∨ c.close < rangeLow
    · rw [if_pos hbr]
      refine ⟨h1, ?_⟩
      intro fb' hfb'
      have heq : some (⟨i, c, if c.close > rangeHigh then Direction.short
          else Direction.long⟩ : FirstB) = some fb' := hfb'
      injection heq with hx
      rw [← hx]
      exact ⟨Nat.lt_succ_self i, hc⟩
    · rw [if_neg hbr]
      refine ⟨h1, ?_⟩
      intro fb' hfb'
      exact absurd (hfb.symm.trans hfb') (by simp)
  | some fb =>
    obtain ⟨hfblt, hfbc⟩ := h2 fb hfb
    simp only []
    by_cases hbr : c.close > rangeHigh ∨ c.close < rangeLow
    · rw [if_pos hbr]
      refine ⟨h1, ?_⟩
      intro fb' hfb'
      have heq : some fb = some fb' := hfb.symm.trans hfb'
      injection heq with hx
      rw [← hx]
      exact ⟨by omega, hfbc⟩
    · rw [if_neg hbr]
      by_cases hre : c.close ≤ rangeHigh ∧ c.close ≥ rangeLow
      · rw [if_pos hre]
        refine ⟨?_, ?_⟩
        · intro s hs
          have hs' : s = mkPair rangeHigh rangeLow candles fb i c ∨
              s ∈ st1.sigs := by simpa using hs
          rcases hs' with rfl | hs'
          · exact mkPair_SigP rangeHigh rangeLow candles fb i c hfbc hfblt hc hilen
          · exact h1 s hs'
        · intro fb' hfb'
          exact absurd hfb' (by simp)
      · rw [if_neg hre]
        refine ⟨h1, ?_⟩
        intro fb' hfb'
        have heq : some fb = some fb' := hfb.symm.trans hfb'
        injection heq with hx
        rw [← hx]
        exact ⟨by omega, hfbc⟩

theorem scanStep_inv (rangeHigh rangeLow : ℚ) (candles : List Candle)
    (i : ℕ) (c : Candle) (st : ScanState)
    (hc : candles.get? i = some c) (hilen : i < candles.length)
    (hinv : StInv rangeHigh rangeLow candles i st) :
    StInv rangeHigh rangeLow candles (i + 1)
      (scanStep rangeHigh rangeLow candles i c st) := by
  obtain ⟨hsigs, hfb⟩ := hinv
  obtain ⟨hshape, hfb1⟩ := scanPhase1_shape c st
  have h1 : ∀ s ∈ (scanPhase1 c st).1.sigs, SigP rangeHigh rangeLow candles s := by
    rcases hshape with heq | ⟨s, rest, r, hsg, heq⟩
    · rw [heq]; exact hsigs
    · rw [heq]
      intro s' hs'
      rcases List.mem_cons.mp hs' with rfl | hs'
      · exact SigP_result_update rangeHigh rangeLow candles s r
          (hsigs s (by rw [hsg]; simp))
      · exact hsigs s' (by rw [hsg]; simp [hs'])
  have h2 : ∀ fb', (scanPhase1 c st).1.firstB = some fb' →
      fb'.idx < i ∧ candles.get? fb'.idx = some fb'.candle := by
    intro fb' hfb'
    rw [hfb1] at hfb'
    exact hfb fb' hfb'
  unfold scanStep
  by_cases hskip : (scanPhase1 c st).2
  · rw [if_pos hskip]
    refine ⟨h1, ?_⟩
    intro fb' hfb'
    obtain ⟨ha, hb⟩ := h2 fb' hfb'
    exact ⟨by omega, hb⟩
  · rw [if_neg hskip]
    exact scanPhase2_inv rangeHigh rangeLow candles i c _ h1 h2 hc hilen

theorem scanList_inv (rangeHigh rangeLow : ℚ) (candles : List Candle) :
    ∀ (rest : List Candle) (i : ℕ) (st : ScanState),
      candles.drop i = rest → StInv rangeHigh rangeLow candles i st →
      ∀ s ∈ (scanList rangeHigh rangeLow candles i rest st).sigs,
        SigP rangeHigh rangeLow candles s := by
  intro rest
  induction rest with
  | nil =>
    intro i st _ hinv
    exact hinv.1
  | cons c rest' ih =>
    intro i st hdrop hinv
    have hc : candles.get? i = some c := by
      have h0 : (candles.drop i).get? 0 = some c := by rw [hdrop]; rfl
      rwa [List.get?_drop, Nat.add_zero] at h0
    have hilen : i < candles.length := (List.get?_eq_some.mp hc).1
    have hdrop' : candles.drop (i + 1) = rest' := by
      have := congrArg List.tail hdrop
      rwa [List.tail_drop] at this
    simp only [scanList]
    exact ih (i + 1) _ hdrop'
      (scanStep_inv rangeHigh rangeLow candles i c st hc hilen hinv)

/-- Every signal emitted by the per-day scan satisfies the provenance and
risk facts. -/
theorem detectBreakoutSignalsDay_SigP (rangeHigh rangeLow : ℚ)
    (candles : List Candle) :
    ∀ s ∈ detectBreakoutSignalsDay rangeHigh rangeLow candles,
      SigP rangeHigh rangeLow candles s := by
  intro s hs
  have h1 := (mem_sortByStable befP _ s).mp hs
  have h2 := List.mem_reverse.mp h1
  exact scanList_inv rangeHigh rangeLow candles candles 0 ⟨[], false, none⟩ rfl
    ⟨by simp, by simp⟩ s h2

theorem reentryDirection_cases (rangeHigh rangeLow : ℚ) (c : Candle)
    (prev : Option Candle) (bp : ℚ) (bd : Direction) :
    (c.low < rangeLow → reentryDirection rangeHigh rangeLow c prev bp bd = .long) ∧
    (¬ c.low < rangeLow → c.high > rangeHigh →
      reentryDirection rangeHigh rangeLow c prev bp bd = .short) ∧
    (∀ p, prev = some p → ¬ c.low < rangeLow → ¬ c.high > rangeHigh →
      ((p.close < rangeLow ∨ p.low < rangeLow) →
        reentryDirection rangeHigh rangeLow c prev bp bd = .long) ∧
      (¬ (p.close < rangeLow ∨ p.low < rangeLow) →
        (p.close > rangeHigh ∨ p.high > rangeHigh) →
        reentryDirection rangeHigh rangeLow c prev bp bd = .short) ∧
      (¬ (p.close < rangeLow ∨ p.low < rangeLow) →
        ¬ (p.close > rangeHigh ∨ p.high > rangeHigh) →
        (bp > rangeHigh → reentryDirection rangeHigh rangeLow c prev bp bd = .short) ∧
        (¬ bp > rangeHigh → bp < rangeLow →
          reentryDirection rangeHigh rangeLow c prev bp bd = .long))) := by
  refine ⟨?_, ?_, ?_⟩
  · intro h
    simp [reentryDirection, h]
  · intro h1 h2
    simp [reentryDirection, h1, h2]
  · intro p hp h1 h2
    subst hp
    refine ⟨?_, ?_, ?_⟩
    · intro h3
      simp [reentryDirection, h1, h2, h3]
    · intro h3 h4
      simp only [reentryDirection, if_neg h1, if_neg h2]
      rw [if_neg h3, if_pos h4]
    · intro h3 h4
      simp only [reentryDirection, if_neg h1, if_neg h2]
      rw [if_neg h3, if_neg h4]
      constructor
      · intro h5
        simp [breakoutFallbackDir, h5]
      · intro h5 h6
        simp [breakoutFallbackDir, h5, h6]

/-- C2: every signal's risk is `min(most adverse excursion from entry over
the candles from the breakout candle through the re-entry candle
inclusive, 1% of the entry price)`; the stop-loss is `entry ∓ risk`, the
take-profit `entry ± 2·risk`, and hence `risk ≤ 0.01 · entryPrice`. -/
theorem breakout_risk_spec (rangeHigh rangeLow : ℚ) (candles : List Candle)
    (s : Pair)
    (hmem : s ∈ detectBreakoutSignalsDay rangeHigh rangeLow candles) :
    s.breakoutIdx < s.reentryIdx ∧
    s.reentryIdx < candles.length ∧
    s.entryPrice = s.reentryCandle.close ∧
    (s.breakoutDirection = .long →
      s.stopLoss = s.entryPrice - min
        (s.entryPrice - windowLowest
          ((candles.drop s.breakoutIdx).take (s.reentryIdx + 1 - s.breakoutIdx)))
        (s.entryPrice * 0.01) ∧
      s.takeProfit = s.entryPrice + min
        (s.entryPrice - windowLowest
          ((candles.drop s.breakoutIdx).take (s.reentryIdx + 1 - s.breakoutIdx)))
        (s.entryPrice * 0.01) * 2 ∧
      s.entryPrice - s.stopLoss ≤ s.entryPrice * 0.01) ∧
    (s.breakoutDirection = .short →
      s.stopLoss = s.entryPrice + min
        (windowHighest
          ((candles.drop s.breakoutIdx).take (s.reentryIdx + 1 - s.breakoutIdx)) -
          s.entryPrice)
        (s.entryPrice * 0.01) ∧
      s.takeProfit = s.entryPrice - min
        (windowHighest
          ((candles.drop s.breakoutIdx).take (s.reentryIdx + 1 - s.breakoutIdx)) -
          s.entryPrice)
        (s.entryPrice * 0.01) * 2 ∧
      s.stopLoss - s.entryPrice ≤ s.entryPrice * 0.01) := by
  obtain ⟨hbi, hri, _, _, _, _, _, _, hentry, _, hlong, hshort⟩ :=
    detectBreakoutSignalsDay_SigP rangeHigh rangeLow candles s hmem
  refine ⟨hbi, hri, hentry, ?_, ?_⟩
  · intro hd
    obtain ⟨hsl, htp⟩ := hlong hd
    refine ⟨hsl, htp, ?_⟩
    have := min_le_right
      (s.entryPrice - windowLowest
        ((candles.drop s.breakoutIdx).take (s.reentryIdx + 1 - s.breakoutIdx)))
      (s.entryPrice * 0.01)
    linarith [hsl]
  · intro hd
    obtain ⟨hsl, htp⟩ := hshort hd
    refine ⟨hsl, htp, ?_⟩
    have := min_le_right
      (windowHighest
        ((candles.drop s.breakoutIdx).take (s.reentryIdx + 1 - s.breakoutIdx)) -
        s.entryPrice)
      (s.entryPrice * 0.01)
    linarith [hsl]

/-- C4: every signal's recorded direction is the re-entry-side direction:
re-entry candle excursion first, previous candle's position second,
breakout-price side only as final fallback. -/
theorem breakout_direction_from_reentry (rangeHigh rangeLow : ℚ)
    (candles : List Candle) (s : Pair)
    (hmem : s ∈ detectBreakoutSignalsDay rangeHigh rangeLow candles) :
    ∃ d₀,
      s.breakoutDirection = reentryDirection rangeHigh rangeLow s.reentryCandle
        (candles.get? (s.reentryIdx - 1)) s.breakoutPrice d₀ ∧
      (s.reentryCandle.low < rangeLow → s.breakoutDirection = .long) ∧
      (¬ s.reentryCandle.low < rangeLow → s.reentryCandle.high > rangeHigh →
        s.breakoutDirection = .short) ∧
      (∀ p, candles.get? (s.reentryIdx - 1) = some p →
        ¬ s.reentryCandle.low < rangeLow → ¬ s.reentryCandle.high > rangeHigh →
        ((p.close < rangeLow ∨ p.low < rangeLow) → s.breakoutDirection = .long) ∧
        (¬ (p.close < rangeLow ∨ p.low < rangeLow) →
          (p.close > rangeHigh ∨ p.high > rangeHigh) →
          s.breakoutDirection = .short) ∧
        (¬ (p.close < rangeLow ∨ p.low < rangeLow) →
          ¬ (p.close > rangeHigh ∨ p.high > rangeHigh) →
          (s.breakoutPrice > rangeHigh → s.breakoutDirection = .short) ∧
          (¬ s.breakoutPrice > rangeHigh → s.breakoutPrice < rangeLow →
            s.breakoutDirection = .long))) := by
  obtain ⟨_, _, _, _, _, _, _, _, _, ⟨d₀, hdir⟩, _, _⟩ :=
    detectBreakoutSignalsDay_SigP rangeHigh rangeLow candles s hmem
  obtain ⟨hc1, hc2, hc3⟩ := reentryDirection_cases rangeHigh rangeLow
    s.reentryCandle (candles.get? (s.reentryIdx - 1)) s.breakoutPrice d₀
  refine ⟨d₀, hdir, ?_, ?_, ?_⟩
  · intro h
    rw [hdir]
    exact hc1 h
  · intro h1 h2
    rw [hdir]
    exact hc2 h1 h2
  · intro p hp h1 h2
    obtain ⟨hd1, hd2, hd3⟩ := hc3 p hp h1 h2
    refine ⟨?_, ?_, ?_⟩
    · intro h3
      rw [hdir]
      exact hd1 h3
    · intro h3 h4
      rw [hdir]
      exact hd2 h3 h4
    · intro h3 h4
      obtain ⟨he1, he2⟩ := hd3 h3 h4
      constructor
      · intro h5
        rw [hdir]
        exact he1 h5
      · intro h5 h6
        rw [hdir]
        exact he2 h5 h6

/-- Witness for C2: range 95-100, breakout close 102, re-entry close 98
with low 94.5 — risk is capped at 1% of entry (0.98), stop-loss 97.02,
take-profit 99.96. -/
theorem breakout_risk_spec_witness :
    (97.02 : ℚ) = 98 - min
      (98 - windowLowest [⟨1, 102.5, 101, 102⟩, ⟨2, 99, 94.5, 98⟩])
      (98 * 0.01) ∧
    (99.96 : ℚ) = 98 + min
      (98 - windowLowest [⟨1, 102.5, 101, 102⟩, ⟨2, 99, 94.5, 98⟩])
      (98 * 0.01) * 2 ∧
    (98 : ℚ) - 97.02 ≤ 98 * 0.01 := by
  have h := breakout_risk_spec 100 95
    [⟨1, 102.5, 101, 102⟩, ⟨2, 99, 94.5, 98⟩]
    ⟨0, 1, 1, 102, .long, 2, 98, 98, 97.02, 99.96, .pending,
      ⟨1, 102.5, 101, 102⟩, ⟨2, 99, 94.5, 98⟩⟩
    (by norm_num [detectBreakoutSignalsDay, scanList, scanStep, scanPhase1,
      scanPhase2, mkPair, reentryDirection, breakoutFallbackDir, windowLowest,
      windowHighest, checkCandleClose, sortByStable, insortBy, befP])
  exact h.2.2.2.1 rfl

/-- Witness for C4: the breakout was above the range (close 102 > 100, so
the initially recorded side is short) yet the created signal is long,
because the re-entry candle's low 94.5 dipped below the range low 95. -/
theorem breakout_direction_from_reentry_witness :
    ∃ d₀,
      Direction.long = reentryDirection 100 95 ⟨2, 99, 94.5, 98⟩
        (([⟨1, 102.5, 101, 102⟩, ⟨2, 99, 94.5, 98⟩] : List Candle).get? 0)
        102 d₀ ∧
      ((94.5 : ℚ) < 95 → Direction.long = Direction.long) ∧
      (¬ (94.5 : ℚ) < 95 → (99 : ℚ) > 100 → Direction.long = Direction.short) ∧
      (∀ p, ([⟨1, 102.5, 101, 102⟩, ⟨2, 99, 94.5, 98⟩] : List Candle).get? 0 =
          some p →
        ¬ (94.5 : ℚ) < 95 → ¬ (99 : ℚ) > 100 →
        ((p.close < 95 ∨ p.low < 95) → Direction.long = Direction.long) ∧
        (¬ (p.close < 95 ∨ p.low < 95) → (p.close > 100 ∨ p.high > 100) →
          Direction.long = Direction.short) ∧
        (¬ (p.close < 95 ∨ p.low < 95) → ¬ (p.close > 100 ∨ p.high > 100) →
          ((102 : ℚ) > 100 → Direction.long = Direction.short) ∧
          (¬ (102 : ℚ) > 100 → (102 : ℚ) < 95 →
            Direction.long = Direction.long))) :=
  breakout_direction_from_reentry 100 95
    [⟨1, 102.5, 101, 102⟩, ⟨2, 99, 94.5, 98⟩]
    ⟨0, 1, 1, 102, .long, 2, 98, 98, 97.02, 99.96, .pending,
      ⟨1, 102.5, 101, 102⟩, ⟨2, 99, 94.5, 98⟩⟩
    (by norm_num [detectBreakoutSignalsDay, scanList, scanStep, scanPhase1,
      scanPhase2, mkPair, reentryDirection, breakoutFallbackDir, windowLowest,
      windowHighest, checkCandleClose, sortByStable, insortBy, befP])

/-- Witness for C1 at `prices = [1, 2, 3]`, `period = 1`. -/
theorem calculateRSI_spec_witness :
    (1 + 1 ≤ ([1, 2, 3] : List ℚ).length →
      ∃ vals : List ℚ,
        calculateRSI [1, 2, 3] 1 =
          some (List.replicate 1 none ++ vals.map some) ∧
        1 + vals.length = ([1, 2, 3] : List ℚ).length ∧
        ∀ x ∈ vals, 0 ≤ x ∧ x ≤ 100) ∧
    (([1, 2, 3] : List ℚ).length < 1 + 1 → calculateRSI [1, 2, 3] 1 = none) :=
  calculateRSI_spec [1, 2, 3] 1 (by norm_num)

end CryptoSignal
